import Mathlib

/-!
Verification of the options analytics engine of `option_scenario_calculator.py`
(class `OptionsAnalyzer`).  The pricing kernel, Greeks scaling, probability
model, implied-volatility solver, strike-ladder generator, scenario engine and
day-trade scoring are embedded shallowly over the reals (exact real
arithmetic; `scipy.stats.norm` becomes the genuine standard normal
pdf/cdf, and rational-only code such as the strike ladder is embedded
over `ℚ` so it can be evaluated by `decide`).
-/

open MeasureTheory Real Set

namespace OptionsCalc

/-- Standard normal probability density (`scipy.stats.norm.pdf`). -/
noncomputable def normPdf (x : ℝ) : ℝ :=
(Real.sqrt (2 * Real.pi))⁻¹ * Real.exp (-(x ^ 2) / 2)

/-- Standard normal cumulative distribution (`scipy.stats.norm.cdf`). -/
noncomputable def normCdf (x : ℝ) : ℝ :=
∫ t in Set.Iic x, normPdf t

theorem sqrt_two_pi_pos : 0 < Real.sqrt (2 * Real.pi) :=
Real.sqrt_pos.mpr (by positivity)

theorem normPdf_pos (x : ℝ) : 0 < normPdf x :=
mul_pos (inv_pos.mpr sqrt_two_pi_pos) (Real.exp_pos _)

theorem normPdf_nonneg (x : ℝ) : 0 ≤ normPdf x := (normPdf_pos x).le

theorem normPdf_neg (x : ℝ) : normPdf (-x) = normPdf x := by
simp [normPdf]

theorem continuous_normPdf : Continuous normPdf := by
unfold normPdf
fun_prop

theorem integrable_normPdf : Integrable normPdf := by
have h : Integrable (fun x : ℝ => Real.exp (-(1/2) * x ^ 2)) :=
  integrable_exp_neg_mul_sq (by norm_num)
have h2 : normPdf
    = fun x : ℝ => (Real.sqrt (2 * Real.pi))⁻¹ * Real.exp (-(1/2) * x ^ 2) := by
  funext x
  simp only [normPdf]
  ring_nf
rw [h2]
exact h.const_mul _

theorem integral_normPdf : ∫ x, normPdf x = 1 := by
have h : (∫ x : ℝ, Real.exp (-(1/2 : ℝ) * x ^ 2)) = Real.sqrt (Real.pi / (1/2)) :=
  integral_gaussian (1/2)
have h2 : (∫ x, normPdf x)
    = (Real.sqrt (2 * Real.pi))⁻¹ * ∫ x : ℝ, Real.exp (-(1/2 : ℝ) * x ^ 2) := by
  rw [← integral_mul_left]
  congr 1
  funext x
  simp only [normPdf]
  ring_nf
rw [h2, h]
have h3 : Real.pi / (1/2 : ℝ) = 2 * Real.pi := by ring
rw [h3]
exact inv_mul_cancel₀ (ne_of_gt sqrt_two_pi_pos)

theorem normCdf_nonneg (x : ℝ) : 0 ≤ normCdf x :=
setIntegral_nonneg measurableSet_Iic (fun t _ => normPdf_nonneg t)

/-- Reflection: the upper tail is the cdf of the negated argument. -/
theorem normCdf_neg_eq (x : ℝ) : normCdf (-x) = ∫ t in Set.Ioi x, normPdf t := by
have h : (∫ t in Set.Iic (-x), normPdf (-t)) = ∫ t in Set.Ioi (x : ℝ), normPdf t := by
  simpa using integral_comp_neg_Iic (-x) normPdf
calc normCdf (-x) = ∫ t in Set.Iic (-x), normPdf (-t) := by
      simp only [normCdf]
      exact (setIntegral_congr_fun measurableSet_Iic (fun t _ => (normPdf_neg t).symm))
  _ = ∫ t in Set.Ioi x, normPdf t := h

theorem normCdf_add_neg (x : ℝ) : normCdf x + normCdf (-x) = 1 := by
rw [normCdf_neg_eq]
rw [normCdf]
rw [intervalIntegral.integral_Iic_add_Ioi integrable_normPdf.integrableOn integrable_normPdf.integrableOn]
exact integral_normPdf

theorem normCdf_le_one (x : ℝ) : normCdf x ≤ 1 := by
have h := normCdf_add_neg x
have h2 := normCdf_nonneg (-x)
linarith

theorem normCdf_sub_eq (a b : ℝ) :
    normCdf b - normCdf a = ∫ t in a..b, normPdf t :=
intervalIntegral.integral_Iic_sub_Iic integrable_normPdf.integrableOn integrable_normPdf.integrableOn

theorem normCdf_pos (x : ℝ) : 0 < normCdf x := by
have h1 : normCdf x - normCdf (x - 1) = ∫ t in (x - 1)..x, normPdf t :=
  normCdf_sub_eq (x - 1) x
have h2 : 0 < ∫ t in (x - 1)..x, normPdf t := by
  apply intervalIntegral.intervalIntegral_pos_of_pos_on
  · exact integrable_normPdf.intervalIntegrable
  · exact fun t _ => normPdf_pos t
  · linarith
have h3 := normCdf_nonneg (x - 1)
linarith

theorem normCdf_lt_one (x : ℝ) : normCdf x < 1 := by
have h := normCdf_add_neg x
have h2 := normCdf_pos (-x)
linarith

theorem normCdf_zero : normCdf 0 = 1 / 2 := by
have h := normCdf_add_neg 0
rw [neg_zero] at h
linarith

theorem normCdf_hasDerivAt (x : ℝ) : HasDerivAt normCdf (normPdf x) x := by
have h : ∀ y : ℝ, normCdf y = normCdf 0 + ∫ t in (0:ℝ)..y, normPdf t := by
  intro y
  have := normCdf_sub_eq 0 y
  linarith
have hd : HasDerivAt (fun y : ℝ => normCdf 0 + ∫ t in (0:ℝ)..y, normPdf t) (normPdf x) x := by
  apply HasDerivAt.const_add
  exact intervalIntegral.integral_hasDerivAt_right
    integrable_normPdf.intervalIntegrable
    (continuous_normPdf.stronglyMeasurableAtFilter _ _)
    continuous_normPdf.continuousAt
exact (Filter.EventuallyEq.hasDerivAt_iff (Filter.Eventually.of_forall h)).mpr hd

theorem normPdf_hasDerivAt (x : ℝ) : HasDerivAt normPdf (-x * normPdf x) x := by
have h1 : HasDerivAt (fun y : ℝ => -(y ^ 2) / 2) (-x) x := by
  have := ((hasDerivAt_pow 2 x).neg).div_const 2
  simpa using this.congr_deriv (by ring)
have h2 : HasDerivAt (fun y : ℝ => Real.exp (-(y ^ 2) / 2))
    (Real.exp (-(x ^ 2) / 2) * (-x)) x := h1.exp
have h3 := h2.const_mul (Real.sqrt (2 * Real.pi))⁻¹
have h4 : (Real.sqrt (2 * Real.pi))⁻¹ * (Real.exp (-(x ^ 2) / 2) * (-x))
    = -x * normPdf x := by
  simp only [normPdf]
  ring
rw [h4] at h3
exact h3.congr_deriv rfl

theorem abs_le_two_mul_exp_sq_div_eight (u : ℝ) : |u| ≤ 2 * Real.exp (u ^ 2 / 8) := by
have h1 : u ^ 2 / 4 + 1 ≤ Real.exp (u ^ 2 / 4) := Real.add_one_le_exp _
have h2 : Real.exp (u ^ 2 / 8) ^ 2 = Real.exp (u ^ 2 / 4) := by
  rw [← Real.exp_nat_mul]
  congr 1
  push_cast
  ring
have h3 : (0:ℝ) < Real.exp (u ^ 2 / 8) := Real.exp_pos _
nlinarith [sq_abs u, abs_nonneg u, sq_nonneg (|u| - 2 * Real.exp (u ^ 2 / 8))]

theorem integrable_id_mul_normPdf : Integrable (fun t : ℝ => t * normPdf t) := by
have hg : Integrable (fun t : ℝ => 2 * (Real.sqrt (2 * Real.pi))⁻¹
    * Real.exp (-(3/8) * t ^ 2)) :=
  (integrable_exp_neg_mul_sq (by norm_num)).const_mul _
apply Integrable.mono' hg
· exact (continuous_id.mul continuous_normPdf).aestronglyMeasurable
· filter_upwards with t
  have habs : |t| ≤ 2 * Real.exp (t ^ 2 / 8) := abs_le_two_mul_exp_sq_div_eight t
  have he : Real.exp (t ^ 2 / 8) * Real.exp (-(t ^ 2) / 2) = Real.exp (-(3/8) * t ^ 2) := by
    rw [← Real.exp_add]
    ring_nf
  have hc : (0:ℝ) ≤ (Real.sqrt (2 * Real.pi))⁻¹ := (inv_pos.mpr sqrt_two_pi_pos).le
  have := mul_le_mul_of_nonneg_right habs
    (mul_nonneg hc (Real.exp_pos (-(t ^ 2) / 2)).le)
  calc ‖t * normPdf t‖ = |t| * ((Real.sqrt (2 * Real.pi))⁻¹ * Real.exp (-(t ^ 2) / 2)) := by
        rw [Real.norm_eq_abs, abs_mul]
        congr 1
        exact abs_of_pos (normPdf_pos t)
    _ ≤ 2 * Real.exp (t ^ 2 / 8) * ((Real.sqrt (2 * Real.pi))⁻¹ * Real.exp (-(t ^ 2) / 2)) :=
        this
    _ = 2 * (Real.sqrt (2 * Real.pi))⁻¹ * Real.exp (-(3/8) * t ^ 2) := by
        rw [← he]
        ring

theorem tendsto_normPdf_atTop : Filter.Tendsto normPdf Filter.atTop (nhds 0) := by
have h1 : Filter.Tendsto (fun u : ℝ => -(u ^ 2) / 2) Filter.atTop Filter.atBot := by
  apply Filter.Tendsto.atBot_div_const (by norm_num)
  exact Filter.tendsto_neg_atBot_iff.mpr (Filter.tendsto_pow_atTop (by norm_num))
have h2 : Filter.Tendsto (fun u : ℝ => Real.exp (-(u ^ 2) / 2)) Filter.atTop (nhds 0) :=
  Real.tendsto_exp_atBot.comp h1
have h3 := h2.const_mul (Real.sqrt (2 * Real.pi))⁻¹
simpa only [mul_zero] using h3

theorem integral_Ioi_id_mul_normPdf (a : ℝ) :
    ∫ u in Set.Ioi a, u * normPdf u = normPdf a := by
have hderiv : ∀ u ∈ Set.Ioi a, HasDerivAt (fun v : ℝ => -normPdf v) (u * normPdf u) u := by
  intro u _
  have := (normPdf_hasDerivAt u).neg
  exact this.congr_deriv (by ring)
have hcont : ContinuousWithinAt (fun v : ℝ => -normPdf v) (Set.Ici a) a :=
  (continuous_normPdf.neg).continuousWithinAt
have hint : IntegrableOn (fun u : ℝ => u * normPdf u) (Set.Ioi a) :=
  integrable_id_mul_normPdf.integrableOn
have htend : Filter.Tendsto (fun v : ℝ => -normPdf v) Filter.atTop (nhds 0) := by
  simpa using tendsto_normPdf_atTop.neg
have := MeasureTheory.integral_Ioi_of_hasDerivAt_of_tendsto hcont hderiv hint htend
simpa using this

theorem integral_Iic_id_mul_normPdf (x : ℝ) :
    ∫ t in Set.Iic x, t * normPdf t = -normPdf x := by
have hrefl := integral_comp_neg_Iic x (fun u : ℝ => u * normPdf u)
rw [integral_Ioi_id_mul_normPdf, normPdf_neg] at hrefl
have hL : (∫ t in Set.Iic x, -t * normPdf (-t))
    = -∫ t in Set.Iic x, t * normPdf t := by
  rw [← integral_neg]
  apply setIntegral_congr_fun measurableSet_Iic
  intro t _
  show -t * normPdf (-t) = -(t * normPdf t)
  rw [normPdf_neg]
  ring
rw [hL] at hrefl
linarith

/-- Mills-type inequality: the Gaussian density dominates `-x` times the cdf. -/
theorem normPdf_add_mul_normCdf_nonneg (x : ℝ) : 0 ≤ normPdf x + x * normCdf x := by
rcases le_or_lt 0 x with hx | hx
· have := normCdf_nonneg x
  have := normPdf_nonneg x
  nlinarith
· have hmono : (∫ t in Set.Iic x, -x * normPdf t) ≤ ∫ t in Set.Iic x, -t * normPdf t := by
    apply setIntegral_mono_on
    · exact (integrable_normPdf.integrableOn).const_mul _
    · have h6 : IntegrableOn (fun t : ℝ => (-1 : ℝ) * (t * normPdf t)) (Set.Iic x) :=
        (integrable_id_mul_normPdf.integrableOn).const_mul _
      have h7 : (fun t : ℝ => (-1 : ℝ) * (t * normPdf t))
          = fun t : ℝ => -t * normPdf t := by
        funext t
        ring
      rwa [h7] at h6
    · exact measurableSet_Iic
    · intro t ht
      have h1 : -x ≤ -t := neg_le_neg ht
      exact mul_le_mul_of_nonneg_right h1 (normPdf_nonneg t)
  have hL : (∫ t in Set.Iic x, -x * normPdf t) = -x * normCdf x := by
    rw [integral_mul_left]
    rfl
  have hR : (∫ t in Set.Iic x, -t * normPdf t) = normPdf x := by
    have h1 : (∫ t in Set.Iic x, -t * normPdf t) = -∫ t in Set.Iic x, t * normPdf t := by
      rw [← integral_neg]
      apply setIntegral_congr_fun measurableSet_Iic
      intro t _
      ring
    rw [h1, integral_Iic_id_mul_normPdf]
    ring
  rw [hL, hR] at hmono
  linarith

/-- The map `x ↦ Φ(x)·e^{x²/2}` is monotone; this is the key inequality behind
the no-arbitrage bounds of the Black-Scholes price. -/
theorem normCdf_mul_exp_monotone :
    Monotone (fun x : ℝ => normCdf x * Real.exp (x ^ 2 / 2)) := by
have hE : ∀ x : ℝ, HasDerivAt (fun y : ℝ => Real.exp (y ^ 2 / 2))
    (Real.exp (x ^ 2 / 2) * x) x := by
  intro x
  have h1 : HasDerivAt (fun y : ℝ => y ^ 2 / 2) x x := by
    have := (hasDerivAt_pow 2 x).div_const 2
    simpa using this.congr_deriv (by ring)
  exact h1.exp
have hH : ∀ x : ℝ, HasDerivAt (fun y : ℝ => normCdf y * Real.exp (y ^ 2 / 2))
    (normPdf x * Real.exp (x ^ 2 / 2) + normCdf x * (Real.exp (x ^ 2 / 2) * x)) x :=
  fun x => (normCdf_hasDerivAt x).mul (hE x)
apply monotone_of_deriv_nonneg
· exact fun x => (hH x).differentiableAt
· intro x
  rw [(hH x).deriv]
  have h1 := normPdf_add_mul_normCdf_nonneg x
  have h2 := (Real.exp_pos (x ^ 2 / 2)).le
  nlinarith

/-- Greeks scaling mode (`self.greeks_scaling`), passed explicitly. -/
inductive ScalingMode
| daily
| per_minute
| annual
deriving DecidableEq

/-- The dict returned by `black_scholes_price`; fields in source order:
price, delta, gamma, theta, vega, rho, d1, d2. -/
structure BSGreeks where
  price : ℝ
  delta : ℝ
  gamma : ℝ
  theta : ℝ
  vega : ℝ
  rho : ℝ
  d1 : ℝ
  d2 : ℝ

/-- `OptionsAnalyzer._scale_greeks`: scale Greeks by the analyzer's
`greeks_scaling` mode.  `per_minute` divides theta by 24·60 and rho by 100;
`annual` multiplies theta by 365 and vega by 100; `daily` is a copy.
The `T` parameter is accepted and unused, as in the source. -/
noncomputable def scale_greeks (mode : ScalingMode) (greeks_dict : BSGreeks) (T : ℝ) :
    BSGreeks :=
  match mode with
  | ScalingMode.per_minute =>
      ⟨greeks_dict.price, greeks_dict.delta, greeks_dict.gamma,
       greeks_dict.theta / (24 * 60), greeks_dict.vega, greeks_dict.rho / 100,
       greeks_dict.d1, greeks_dict.d2⟩
  | ScalingMode.annual =>
      ⟨greeks_dict.price, greeks_dict.delta, greeks_dict.gamma,
       greeks_dict.theta * 365, greeks_dict.vega * 100, greeks_dict.rho,
       greeks_dict.d1, greeks_dict.d2⟩
  | ScalingMode.daily => greeks_dict

/-- The local `d1` of `black_scholes_price`. -/
noncomputable def bs_d1 (S K T r sigma : ℝ) : ℝ :=
  (Real.log (S / K) + (r + sigma ^ 2 / 2) * T) / (sigma * Real.sqrt T)

/-- The local `d2` of `black_scholes_price`. -/
noncomputable def bs_d2 (S K T r sigma : ℝ) : ℝ :=
  bs_d1 S K T r sigma - sigma * Real.sqrt T

/-- `OptionsAnalyzer.black_scholes_price`.  Note that the source performs no
input validation and never raises: `T ≤ 0` returns the intrinsic-value branch
directly (without scaling), any `option_type` other than `"call"` takes the
put branch, and `sigma ≤ 0` flows straight into the formula. -/
noncomputable def black_scholes_price (mode : ScalingMode)
    (S K T r sigma : ℝ) (option_type : String) : BSGreeks :=
  if T ≤ 0 then
    if option_type = "call" then
      ⟨max (S - K) 0, if S > K then 1 else 0, 0, 0, 0, 0, 0, 0⟩
    else
      ⟨max (K - S) 0, if S < K then -1 else 0, 0, 0, 0, 0, 0, 0⟩
  else
    let d1 := bs_d1 S K T r sigma
    let d2 := bs_d2 S K T r sigma
    let price := if option_type = "call"
      then S * normCdf d1 - K * Real.exp (-r * T) * normCdf d2
      else K * Real.exp (-r * T) * normCdf (-d2) - S * normCdf (-d1)
    let delta := if option_type = "call" then normCdf d1 else -normCdf (-d1)
    let rho := if option_type = "call"
      then K * T * Real.exp (-r * T) * normCdf d2
      else -(K * T * Real.exp (-r * T) * normCdf (-d2))
    let gamma := normPdf d1 / (S * sigma * Real.sqrt T)
    let theta := if option_type = "call"
      then (-S * normPdf d1 * sigma / (2 * Real.sqrt T)
            - r * K * Real.exp (-r * T) * normCdf d2) / 365
      else (-S * normPdf d1 * sigma / (2 * Real.sqrt T)
            + r * K * Real.exp (-r * T) * normCdf (-d2)) / 365
    let vega := S * normPdf d1 * Real.sqrt T / 100
    scale_greeks mode ⟨price, delta, gamma, theta, vega, rho, d1, d2⟩ T

/-- The dict returned by `calculate_probability_profit`; fields in source
order: breakeven, prob_profit, prob_itm, premium. -/
structure ProbResult where
  breakeven : ℝ
  prob_profit : ℝ
  prob_itm : ℝ
  premium : ℝ

/-- `OptionsAnalyzer.calculate_probability_profit`.  The source has no `T ≤ 0`
guard of its own: the quotients are evaluated unconditionally (the embedding
uses the total real division, under which `x / 0 = 0`; the source's float
arithmetic produces `±inf`/`NaN` quotients there). -/
noncomputable def calculate_probability_profit (mode : ScalingMode)
    (S K T r sigma : ℝ) (option_type : String) : ProbResult :=
  let option_price := (black_scholes_price mode S K T r sigma option_type).price
  if option_type = "call" then
    let breakeven := K + option_price
    let d := (Real.log (S / breakeven) + (r - sigma ^ 2 / 2) * T)
      / (sigma * Real.sqrt T)
    let d_itm := (Real.log (S / K) + (r - sigma ^ 2 / 2) * T)
      / (sigma * Real.sqrt T)
    ⟨breakeven, normCdf d, normCdf d_itm, option_price⟩
  else
    let breakeven := K - option_price
    let d := (Real.log (S / breakeven) + (r - sigma ^ 2 / 2) * T)
      / (sigma * Real.sqrt T)
    let d_itm := (Real.log (S / K) + (r - sigma ^ 2 / 2) * T)
      / (sigma * Real.sqrt T)
    ⟨breakeven, normCdf (-d), normCdf (-d_itm), option_price⟩

/-- The success dict of `implied_volatility_calculator`; fields in source
order. -/
structure IVResult where
  implied_volatility : ℝ
  market_price : ℝ
  theoretical_price : ℝ
  price_difference : ℝ
  iv_high : ℝ
  iv_low : ℝ
  price_at_iv_high : ℝ
  price_at_iv_low : ℝ
  vega : ℝ
  delta : ℝ
  gamma : ℝ
  theta : ℝ

open Classical in
/-- Model of `scipy.optimize.brentq` (an external library, idealized in exact
real arithmetic): a bracketed root-finder returning a root of `f` inside
`[a, b]` when one exists, and failing (the `ValueError` branch) otherwise. -/
noncomputable def brentq (f : ℝ → ℝ) (a b : ℝ) : Option ℝ :=
  if h : ∃ x, x ∈ Set.Icc a b ∧ f x = 0 then some (Classical.choose h) else none

/-- `OptionsAnalyzer.implied_volatility_calculator`; `none` is the
`except ValueError` error-dict branch. -/
noncomputable def implied_volatility_calculator (mode : ScalingMode)
    (market_price S K T r : ℝ) (option_type : String) : Option IVResult :=
  match brentq (fun sigma =>
      (black_scholes_price mode S K T r sigma option_type).price - market_price)
      0.0001 5.0 with
  | none => none
  | some iv =>
    let bs_result := black_scholes_price mode S K T r iv option_type
    let iv_high := iv * 1.1
    let iv_low := iv * 0.9
    let bs_high := black_scholes_price mode S K T r iv_high option_type
    let bs_low := black_scholes_price mode S K T r iv_low option_type
    some ⟨iv, market_price, bs_result.price, market_price - bs_result.price,
          iv_high, iv_low, bs_high.price, bs_low.price,
          bs_result.vega, bs_result.delta, bs_result.gamma, bs_result.theta⟩

/-- Python 3 `round` (half to even) on an exact rational. -/
def python_round (q : ℚ) : ℤ :=
  let f := Int.floor q
  if q - f < 1/2 then f
  else if (1:ℚ)/2 < q - f then f + 1
  else if Even f then f else f + 1

/-- Exact-arithmetic semantics of `numpy.arange(start, stop, step)` for a
positive step: the values `start + k*step` for `0 ≤ k < ⌈(stop-start)/step⌉`. -/
def np_arange (start stop step : ℚ) : List ℚ :=
  (List.range (Int.ceil ((stop - start) / step)).toNat).map
    (fun k : ℕ => start + (k : ℚ) * step)

/-- `OptionsAnalyzer.generate_strike_range`, with the analyzer configuration
(`strike_increment`, `strike_range_width`) passed explicitly.  All arithmetic
here is rational, so the embedding is executable. -/
def generate_strike_range (strike_increment strike_range_width : ℚ)
    (S : ℚ) (dte : ℚ) : List ℚ :=
  let increment := strike_increment
  let width := strike_range_width
  let dte_multiplier := max (1/2 : ℚ) (min 2 (dte / 7))
  let adjusted_width := width * dte_multiplier
  let atm_strike := (python_round (S / increment) : ℚ) * increment
  np_arange (atm_strike - adjusted_width) (atm_strike + adjusted_width + increment)
    increment

/-- The per-contract scenario block of `_generate_option_table`: for each
configured move (in `expected_moves` insertion order) the dict entries
`{name}_change` and `{name}_rr`. -/
noncomputable def move_scenarios (mode : ScalingMode) (S K T r sigma : ℝ)
    (option_type : String) (expected_moves : List (String × ℝ)) :
    List (String × ℝ) :=
  let bs := black_scholes_price mode S K T r sigma option_type
  expected_moves.flatMap (fun move =>
    let new_price := if option_type = "call" then S + move.2 else S - abs move.2
    let bs_moved := black_scholes_price mode new_price K T r sigma option_type
    let price_change := bs_moved.price - bs.price
    let rr_ratio := if bs.price > 0.01 then price_change / bs.price else 0
    let entries : List (String × ℝ) :=
      [(move.1 ++ "_change", price_change), (move.1 ++ "_rr", rr_ratio)]
    entries)

/-- `OptionsAnalyzer._calculate_day_trade_score`.  The source indexes
`list(expected_moves.keys())[0]` and `move_scenarios[f"{primary}_rr"]`
directly (raising on an empty config or a missing key); the embedding
totalizes those two lookups with defaults that the theorems below never
exercise. -/
noncomputable def calculate_day_trade_score (bs : BSGreeks)
    (move_scenarios_data : List (String × ℝ)) (prob_data : ProbResult)
    (expected_moves : List (String × ℝ)) : ℝ :=
  let primary_move := (expected_moves.headD ("", 0)).1
  |bs.delta| * 0.4
    + ((move_scenarios_data.lookup (primary_move ++ "_rr")).getD 0) * 0.3
    + (1 / (bs.price + 1)) * 0.2
    + prob_data.prob_itm * 0.1

theorem scale_greeks_price (mode : ScalingMode) (g : BSGreeks) (T : ℝ) :
    (scale_greeks mode g T).price = g.price := by
cases mode <;> rfl

theorem scale_greeks_delta (mode : ScalingMode) (g : BSGreeks) (T : ℝ) :
    (scale_greeks mode g T).delta = g.delta := by
cases mode <;> rfl

theorem scale_greeks_gamma (mode : ScalingMode) (g : BSGreeks) (T : ℝ) :
    (scale_greeks mode g T).gamma = g.gamma := by
cases mode <;> rfl

/-- The source tests `option_type == 'call'` and treats every other string as
a put: malformed contract kinds are silently coerced, never rejected. -/
theorem black_scholes_kind_coerce (mode : ScalingMode) (S K T r sigma : ℝ)
    (kind : String) (h : kind ≠ "call") :
    black_scholes_price mode S K T r sigma kind
      = black_scholes_price mode S K T r sigma "put" := by
have hp : ¬ (("put" : String) = "call") := by decide
simp only [black_scholes_price, if_neg h, if_neg hp]

theorem black_scholes_T_nonpos_call (mode : ScalingMode) (S K T r sigma : ℝ)
    (hT : T ≤ 0) :
    black_scholes_price mode S K T r sigma "call"
      = ⟨max (S - K) 0, if S > K then 1 else 0, 0, 0, 0, 0, 0, 0⟩ := by
simp [black_scholes_price, hT]

theorem black_scholes_T_nonpos_put (mode : ScalingMode) (S K T r sigma : ℝ)
    (hT : T ≤ 0) :
    black_scholes_price mode S K T r sigma "put"
      = ⟨max (K - S) 0, if S < K then -1 else 0, 0, 0, 0, 0, 0, 0⟩ := by
have hp : ¬ (("put" : String) = "call") := by decide
simp [black_scholes_price, hT, hp]

/-- C1: for every option spec with S>0 and K>0, if T ≤ 0 the pricing kernel
returns the intrinsic value as the price, delta ∈ {0,1} (call) resp. {0,-1}
(put) according to moneyness, and gamma = theta = vega = rho = 0. -/
theorem claim_C1_degenerate_expiry (mode : ScalingMode) (S K T r sigma : ℝ)
    (hS : 0 < S) (hK : 0 < K) (hT : T ≤ 0) :
    (black_scholes_price mode S K T r sigma "call").price = max (S - K) 0 ∧
    (black_scholes_price mode S K T r sigma "put").price = max (K - S) 0 ∧
    (black_scholes_price mode S K T r sigma "call").delta
      = (if S > K then 1 else 0) ∧
    (black_scholes_price mode S K T r sigma "put").delta
      = (if S < K then -1 else 0) ∧
    (black_scholes_price mode S K T r sigma "call").gamma = 0 ∧
    (black_scholes_price mode S K T r sigma "call").theta = 0 ∧
    (black_scholes_price mode S K T r sigma "call").vega = 0 ∧
    (black_scholes_price mode S K T r sigma "call").rho = 0 ∧
    (black_scholes_price mode S K T r sigma "put").gamma = 0 ∧
    (black_scholes_price mode S K T r sigma "put").theta = 0 ∧
    (black_scholes_price mode S K T r sigma "put").vega = 0 ∧
    (black_scholes_price mode S K T r sigma "put").rho = 0 := by
rw [black_scholes_T_nonpos_call mode S K T r sigma hT,
  black_scholes_T_nonpos_put mode S K T r sigma hT]
exact ⟨rfl, rfl, rfl, rfl, rfl, rfl, rfl, rfl, rfl, rfl, rfl, rfl⟩

theorem claim_C1_witness :
    (black_scholes_price ScalingMode.daily 2 1 0 0 1 "call").price
      = max (2 - 1 : ℝ) 0 :=
(claim_C1_degenerate_expiry ScalingMode.daily 2 1 0 0 1
  two_pos one_pos (le_refl 0)).1

/-- C2 (amended): the pricing kernel performs no input validation and never
fails: any contract kind other than "call" (including malformed kinds) is
silently treated as "put", and sigma ≤ 0 with T > 0 is not rejected — the
formula branch still executes and returns a Greeks record. -/
theorem claim_C2_no_input_validation (mode : ScalingMode) (S K T r sigma : ℝ)
    (kind : String) (h : kind ≠ "call") :
    black_scholes_price mode S K T r sigma kind
      = black_scholes_price mode S K T r sigma "put" :=
black_scholes_kind_coerce mode S K T r sigma kind h

/-- C2 counterexample: at S=K=100, T=1>0, sigma=0≤0 and the malformed kind
"banana", the kernel does not fail with an InvalidInput error — it silently
runs the put computation on the bad input. -/
theorem claim_C2_counterexample :
    black_scholes_price ScalingMode.daily 100 100 1 0 0 "banana"
      = black_scholes_price ScalingMode.daily 100 100 1 0 0 "put" :=
black_scholes_kind_coerce ScalingMode.daily 100 100 1 0 0 "banana" (by decide)

theorem claim_C2_witness :
    ("bananas" : String) ≠ "call" ∧
    black_scholes_price ScalingMode.daily 1 1 1 0 1 "bananas"
      = black_scholes_price ScalingMode.daily 1 1 1 0 1 "put" :=
⟨by decide,
  claim_C2_no_input_validation ScalingMode.daily 1 1 1 0 1 "bananas" (by decide)⟩

/-- C5 (amended): `daily` is the identity and the single-application scalings
match the spec (theta·365 / vega·100 for annual, theta/1440 / rho/100 for
per-minute), but the transform is NOT idempotent: applying `per_minute` or
`annual` twice rescales theta again. -/
theorem claim_C5_scaling_not_idempotent (g : BSGreeks) (T T2 : ℝ) :
    scale_greeks ScalingMode.daily g T = g ∧
    (scale_greeks ScalingMode.annual g T).theta = g.theta * 365 ∧
    (scale_greeks ScalingMode.per_minute g T).theta = g.theta / 1440 ∧
    (scale_greeks ScalingMode.annual g T).vega = g.vega * 100 ∧
    (scale_greeks ScalingMode.per_minute g T).rho = g.rho / 100 ∧
    (g.theta ≠ 0 →
      scale_greeks ScalingMode.per_minute (scale_greeks ScalingMode.per_minute g T) T2
        ≠ scale_greeks ScalingMode.per_minute g T) ∧
    (g.theta ≠ 0 →
      scale_greeks ScalingMode.annual (scale_greeks ScalingMode.annual g T) T2
        ≠ scale_greeks ScalingMode.annual g T) := by
refine ⟨rfl, rfl, by simp [scale_greeks]; norm_num, rfl, rfl, ?_, ?_⟩
· intro h heq
  have h2 := congrArg BSGreeks.theta heq
  simp only [scale_greeks] at h2
  apply h
  linarith
· intro h heq
  have h2 := congrArg BSGreeks.theta heq
  simp only [scale_greeks] at h2
  apply h
  linarith

/-- C5 counterexample: scaling the Greeks value with theta = 1 twice in
`per_minute` mode double-scales (1/1440² ≠ 1/1440), falsifying idempotence. -/
theorem claim_C5_counterexample :
    scale_greeks ScalingMode.per_minute
        (scale_greeks ScalingMode.per_minute ⟨0, 0, 0, 1, 0, 0, 0, 0⟩ 1) 1
      ≠ scale_greeks ScalingMode.per_minute ⟨0, 0, 0, 1, 0, 0, 0, 0⟩ 1 := by
intro heq
have h2 := congrArg BSGreeks.theta heq
simp only [scale_greeks] at h2
norm_num at h2

theorem claim_C5_witness :
    ((⟨0, 0, 0, 1, 0, 0, 0, 0⟩ : BSGreeks).theta ≠ 0) ∧
    scale_greeks ScalingMode.annual
        (scale_greeks ScalingMode.annual ⟨0, 0, 0, 1, 0, 0, 0, 0⟩ 1) 1
      ≠ scale_greeks ScalingMode.annual ⟨0, 0, 0, 1, 0, 0, 0, 0⟩ 1 :=
⟨by norm_num,
  (claim_C5_scaling_not_idempotent ⟨0, 0, 0, 1, 0, 0, 0, 0⟩ 1 1).2.2.2.2.2.2
    (by norm_num)⟩

/-- C4 (amended): the probability calculator has no degenerate-input guard of
its own: at T = 0 the formula executes, dividing by sigma·√T = 0.  Under the
embedding's total real division (x/0 = 0) the at-the-money prob_itm comes out
as Φ(0) = 1/2 — not the moneyness indicator (which is 0 at S = K); the
source's float arithmetic produces NaN at this input, likewise not the
indicator. -/
theorem claim_C4_probability_no_guard (mode : ScalingMode) (S r sigma : ℝ)
    (hS : 0 < S) :
    (calculate_probability_profit mode S S 0 r sigma "call").prob_itm = 1 / 2 ∧
    (calculate_probability_profit mode S S 0 r sigma "call").prob_itm
      ≠ (if S > S then (1 : ℝ) else 0) := by
have hprice : (black_scholes_price mode S S 0 r sigma "call").price = 0 := by
  rw [black_scholes_T_nonpos_call mode S S 0 r sigma (le_refl 0)]
  simp
have hlog : Real.log (S / S) = 0 := by
  rw [div_self (ne_of_gt hS)]
  exact Real.log_one
have hitm : (calculate_probability_profit mode S S 0 r sigma "call").prob_itm
    = 1 / 2 := by
  simp only [calculate_probability_profit, hprice]
  norm_num [hlog, Real.sqrt_zero, normCdf_zero]
refine ⟨hitm, ?_⟩
rw [hitm]
simp

theorem claim_C4_counterexample :
    (calculate_probability_profit ScalingMode.daily 1 1 0 0 1 "call").prob_itm
      = 1 / 2 ∧
    (calculate_probability_profit ScalingMode.daily 1 1 0 0 1 "call").prob_itm
      ≠ 0 := by
have hprice : (black_scholes_price ScalingMode.daily 1 1 0 0 1 "call").price = 0 := by
  rw [black_scholes_T_nonpos_call ScalingMode.daily 1 1 0 0 1 (le_refl 0)]
  simp
have hitm : (calculate_probability_profit ScalingMode.daily 1 1 0 0 1 "call").prob_itm
    = 1 / 2 := by
  simp only [calculate_probability_profit, hprice]
  norm_num [Real.sqrt_zero, normCdf_zero]
exact ⟨hitm, by rw [hitm]; norm_num⟩

theorem claim_C4_witness :
    (0 : ℝ) < 2 ∧
    ((calculate_probability_profit ScalingMode.daily 2 2 0 0 1 "call").prob_itm
        = 1 / 2 ∧
      (calculate_probability_profit ScalingMode.daily 2 2 0 0 1 "call").prob_itm
        ≠ (if (2 : ℝ) > 2 then (1 : ℝ) else 0)) :=
⟨two_pos, claim_C4_probability_no_guard ScalingMode.daily 2 0 1 two_pos⟩

theorem black_scholes_call_price (mode : ScalingMode) (S K T r sigma : ℝ)
    (hT : 0 < T) :
    (black_scholes_price mode S K T r sigma "call").price
      = S * normCdf (bs_d1 S K T r sigma)
        - K * Real.exp (-r * T) * normCdf (bs_d2 S K T r sigma) := by
have hT2 : ¬ T ≤ 0 := not_le.mpr hT
simp [black_scholes_price, hT2, scale_greeks_price]

theorem black_scholes_put_price (mode : ScalingMode) (S K T r sigma : ℝ)
    (hT : 0 < T) :
    (black_scholes_price mode S K T r sigma "put").price
      = K * Real.exp (-r * T) * normCdf (-bs_d2 S K T r sigma)
        - S * normCdf (-bs_d1 S K T r sigma) := by
have hT2 : ¬ T ≤ 0 := not_le.mpr hT
have hp : ¬ (("put" : String) = "call") := by decide
simp [black_scholes_price, hT2, hp, scale_greeks_price]

theorem black_scholes_call_delta (mode : ScalingMode) (S K T r sigma : ℝ)
    (hT : 0 < T) :
    (black_scholes_price mode S K T r sigma "call").delta
      = normCdf (bs_d1 S K T r sigma) := by
have hT2 : ¬ T ≤ 0 := not_le.mpr hT
simp [black_scholes_price, hT2, scale_greeks_delta]

theorem black_scholes_put_delta (mode : ScalingMode) (S K T r sigma : ℝ)
    (hT : 0 < T) :
    (black_scholes_price mode S K T r sigma "put").delta
      = -normCdf (-bs_d1 S K T r sigma) := by
have hT2 : ¬ T ≤ 0 := not_le.mpr hT
have hp : ¬ (("put" : String) = "call") := by decide
simp [black_scholes_price, hT2, hp, scale_greeks_delta]

theorem black_scholes_gamma (mode : ScalingMode) (S K T r sigma : ℝ)
    (kind : String) (hT : 0 < T) :
    (black_scholes_price mode S K T r sigma kind).gamma
      = normPdf (bs_d1 S K T r sigma) / (S * sigma * Real.sqrt T) := by
have hT2 : ¬ T ≤ 0 := not_le.mpr hT
by_cases hk : kind = "call" <;>
  simp [black_scholes_price, hT2, hk, scale_greeks_gamma]

/-- Exact put-call parity of the pricing kernel (any scaling mode; the price
field is never rescaled). -/
theorem black_scholes_parity (mode : ScalingMode) (S K T r sigma : ℝ)
    (hT : 0 < T) :
    (black_scholes_price mode S K T r sigma "call").price
      - (black_scholes_price mode S K T r sigma "put").price
      = S - K * Real.exp (-r * T) := by
rw [black_scholes_call_price mode S K T r sigma hT,
  black_scholes_put_price mode S K T r sigma hT]
have h1 := normCdf_add_neg (bs_d1 S K T r sigma)
have h2 := normCdf_add_neg (bs_d2 S K T r sigma)
linear_combination S * h1 - K * Real.exp (-r * T) * h2

/-- C3: put-call parity: for S>0, K>0, T>0, sigma>0 the call and put prices
from the pricing kernel on the same inputs satisfy
call − put = S − K·e^{−rT} within 1e-6 (the embedding satisfies it exactly). -/
theorem claim_C3_put_call_parity (mode : ScalingMode) (S K T r sigma : ℝ)
    (hS : 0 < S) (hK : 0 < K) (hT : 0 < T) (hsig : 0 < sigma) :
    |(black_scholes_price mode S K T r sigma "call").price
      - (black_scholes_price mode S K T r sigma "put").price
      - (S - K * Real.exp (-r * T))| < 1e-6 := by
rw [black_scholes_parity mode S K T r sigma hT, sub_self, abs_zero]
norm_num

theorem claim_C3_witness :
    |(black_scholes_price ScalingMode.daily 1 1 1 0 1 "call").price
      - (black_scholes_price ScalingMode.daily 1 1 1 0 1 "put").price
      - ((1 : ℝ) - 1 * Real.exp (-0 * 1))| < 1e-6 :=
claim_C3_put_call_parity ScalingMode.daily 1 1 1 0 1
  one_pos one_pos one_pos one_pos

theorem bs_d2_lt_d1 (S K T r sigma : ℝ) (hT : 0 < T) (hsig : 0 < sigma) :
    bs_d2 S K T r sigma < bs_d1 S K T r sigma := by
unfold bs_d2
exact sub_lt_self _ (mul_pos hsig (Real.sqrt_pos.mpr hT))

/-- The discount identity `K·e^{−rT} = S·e^{d2²/2 − d1²/2}`. -/
theorem bs_discount_identity (S K T r sigma : ℝ) (hS : 0 < S) (hK : 0 < K)
    (hT : 0 < T) (hsig : 0 < sigma) :
    K * Real.exp (-r * T)
      = S * Real.exp (bs_d2 S K T r sigma ^ 2 / 2 - bs_d1 S K T r sigma ^ 2 / 2) := by
have hs : 0 < Real.sqrt T := Real.sqrt_pos.mpr hT
have ha : 0 < sigma * Real.sqrt T := mul_pos hsig hs
have hss : Real.sqrt T * Real.sqrt T = T := Real.mul_self_sqrt hT.le
have hd1a : bs_d1 S K T r sigma * (sigma * Real.sqrt T)
    = Real.log (S / K) + r * T + (sigma * Real.sqrt T) ^ 2 / 2 := by
  unfold bs_d1
  rw [div_mul_cancel₀ _ (ne_of_gt ha)]
  linear_combination (-(sigma ^ 2) / 2) * hss
have hexp : bs_d2 S K T r sigma ^ 2 / 2 - bs_d1 S K T r sigma ^ 2 / 2
    = -Real.log (S / K) - r * T := by
  unfold bs_d2
  linear_combination (-1 : ℝ) * hd1a
rw [hexp, sub_eq_add_neg, Real.exp_add, Real.exp_neg, Real.exp_log (div_pos hS hK)]
rw [inv_div]
field_simp

theorem bs_call_core_le (S K T r sigma : ℝ) (hS : 0 < S) (hK : 0 < K)
    (hT : 0 < T) (hsig : 0 < sigma) :
    K * Real.exp (-r * T) * normCdf (bs_d2 S K T r sigma)
      ≤ S * normCdf (bs_d1 S K T r sigma) := by
have hd : bs_d2 S K T r sigma ≤ bs_d1 S K T r sigma :=
  (bs_d2_lt_d1 S K T r sigma hT hsig).le
have hH := normCdf_mul_exp_monotone hd
simp only at hH
have hKe := bs_discount_identity S K T r sigma hS hK hT hsig
calc K * Real.exp (-r * T) * normCdf (bs_d2 S K T r sigma)
    = S * Real.exp (-(bs_d1 S K T r sigma ^ 2) / 2)
      * (normCdf (bs_d2 S K T r sigma) * Real.exp (bs_d2 S K T r sigma ^ 2 / 2)) := by
      rw [hKe, Real.exp_sub, neg_div, Real.exp_neg]
      field_simp
      ring
  _ ≤ S * Real.exp (-(bs_d1 S K T r sigma ^ 2) / 2)
      * (normCdf (bs_d1 S K T r sigma) * Real.exp (bs_d1 S K T r sigma ^ 2 / 2)) := by
      apply mul_le_mul_of_nonneg_left hH (by positivity)
  _ = S * normCdf (bs_d1 S K T r sigma) := by
      rw [neg_div, Real.exp_neg]
      field_simp
      ring

theorem bs_put_core_le (S K T r sigma : ℝ) (hS : 0 < S) (hK : 0 < K)
    (hT : 0 < T) (hsig : 0 < sigma) :
    S * normCdf (-bs_d1 S K T r sigma)
      ≤ K * Real.exp (-r * T) * normCdf (-bs_d2 S K T r sigma) := by
have hd : -bs_d1 S K T r sigma ≤ -bs_d2 S K T r sigma :=
  neg_le_neg (bs_d2_lt_d1 S K T r sigma hT hsig).le
have hH := normCdf_mul_exp_monotone hd
simp only [neg_sq] at hH
have hKe := bs_discount_identity S K T r sigma hS hK hT hsig
calc S * normCdf (-bs_d1 S K T r sigma)
    = S * Real.exp (-(bs_d1 S K T r sigma ^ 2) / 2)
      * (normCdf (-bs_d1 S K T r sigma) * Real.exp (bs_d1 S K T r sigma ^ 2 / 2)) := by
      rw [neg_div, Real.exp_neg]
      field_simp
      ring
  _ ≤ S * Real.exp (-(bs_d1 S K T r sigma ^ 2) / 2)
      * (normCdf (-bs_d2 S K T r sigma) * Real.exp (bs_d2 S K T r sigma ^ 2 / 2)) := by
      apply mul_le_mul_of_nonneg_left hH (by positivity)
  _ = K * Real.exp (-r * T) * normCdf (-bs_d2 S K T r sigma) := by
      rw [hKe, Real.exp_sub, neg_div, Real.exp_neg]
      field_simp
      ring

/-- C6 (amended): for S>0, K>0, T>0, sigma>0 the kernel's Greeks satisfy
delta ∈ [0,1] for calls and [-1,0] for puts, gamma ≥ 0, and both prices are
nonnegative; the undiscounted intrinsic-value floor max(S−K,0) holds for
calls when additionally r ≥ 0, and max(K−S,0) holds for puts when r ≤ 0
(for other signs of r the European price may sit below intrinsic value). -/
theorem claim_C6_invariants (mode : ScalingMode) (S K T r sigma : ℝ)
    (hS : 0 < S) (hK : 0 < K) (hT : 0 < T) (hsig : 0 < sigma) :
    (0 ≤ (black_scholes_price mode S K T r sigma "call").delta ∧
      (black_scholes_price mode S K T r sigma "call").delta ≤ 1) ∧
    (-1 ≤ (black_scholes_price mode S K T r sigma "put").delta ∧
      (black_scholes_price mode S K T r sigma "put").delta ≤ 0) ∧
    0 ≤ (black_scholes_price mode S K T r sigma "call").gamma ∧
    0 ≤ (black_scholes_price mode S K T r sigma "put").gamma ∧
    0 ≤ (black_scholes_price mode S K T r sigma "call").price ∧
    0 ≤ (black_scholes_price mode S K T r sigma "put").price ∧
    (0 ≤ r → max (S - K) 0 ≤ (black_scholes_price mode S K T r sigma "call").price) ∧
    (r ≤ 0 → max (K - S) 0 ≤ (black_scholes_price mode S K T r sigma "put").price) := by
have hcd := black_scholes_call_delta mode S K T r sigma hT
have hpd := black_scholes_put_delta mode S K T r sigma hT
have hcp := black_scholes_call_price mode S K T r sigma hT
have hpp := black_scholes_put_price mode S K T r sigma hT
have hcored := bs_call_core_le S K T r sigma hS hK hT hsig
have hcorep := bs_put_core_le S K T r sigma hS hK hT hsig
have hparity := black_scholes_parity mode S K T r sigma hT
refine ⟨⟨?_, ?_⟩, ⟨?_, ?_⟩, ?_, ?_, ?_, ?_, ?_, ?_⟩
· rw [hcd]
  exact normCdf_nonneg _
· rw [hcd]
  exact normCdf_le_one _
· rw [hpd]
  have := normCdf_le_one (-bs_d1 S K T r sigma)
  linarith
· rw [hpd]
  have := normCdf_nonneg (-bs_d1 S K T r sigma)
  linarith
· rw [black_scholes_gamma mode S K T r sigma "call" hT]
  have h1 := normPdf_nonneg (bs_d1 S K T r sigma)
  have h2 : 0 < S * sigma * Real.sqrt T := by positivity
  positivity
· rw [black_scholes_gamma mode S K T r sigma "put" hT]
  have h1 := normPdf_nonneg (bs_d1 S K T r sigma)
  have h2 : 0 < S * sigma * Real.sqrt T := by positivity
  positivity
· rw [hcp]
  linarith
· rw [hpp]
  linarith
· intro hr
  have hdis : K * Real.exp (-r * T) ≤ K := by
    have h1 : Real.exp (-r * T) ≤ 1 := by
      rw [Real.exp_le_one_iff]
      nlinarith
    nlinarith [Real.exp_pos (-r * T)]
  have hput0 : 0 ≤ (black_scholes_price mode S K T r sigma "put").price := by
    rw [hpp]
    linarith
  apply max_le
  · linarith
  · rw [hcp]
    linarith
· intro hr
  have hdis : K ≤ K * Real.exp (-r * T) := by
    have h1 : 1 ≤ Real.exp (-r * T) := by
      rw [Real.one_le_exp_iff]
      nlinarith
    nlinarith
  have hcall0 : 0 ≤ (black_scholes_price mode S K T r sigma "call").price := by
    rw [hcp]
    linarith
  apply max_le
  · linarith
  · rw [hpp]
    linarith

/-- C6 counterexample: at S=1, K=4, T=1, r=log 2, sigma=1 the put price is
below its intrinsic value max(K−S,0)=3 (deep-ITM European puts trade below
intrinsic under a positive rate), falsifying the unrestricted price-floor
invariant. -/
theorem claim_C6_counterexample :
    (black_scholes_price ScalingMode.daily 1 4 1 (Real.log 2) 1 "put").price
      < max ((4 : ℝ) - 1) 0 := by
rw [black_scholes_put_price ScalingMode.daily 1 4 1 (Real.log 2) 1 one_pos]
have he : Real.exp (-Real.log 2 * 1) = 1 / 2 := by
  rw [mul_one, Real.exp_neg, Real.exp_log two_pos]
  norm_num
rw [he]
have h1 := normCdf_le_one (-bs_d2 1 4 1 (Real.log 2) 1)
have h2 := normCdf_nonneg (-bs_d1 1 4 1 (Real.log 2) 1)
have hmax : max ((4 : ℝ) - 1) 0 = 3 := by norm_num
rw [hmax]
nlinarith

theorem claim_C6_witness :
    max ((1 : ℝ) - 1) 0
      ≤ (black_scholes_price ScalingMode.daily 1 1 1 0 1 "call").price :=
(claim_C6_invariants ScalingMode.daily 1 1 1 0 1
  one_pos one_pos one_pos one_pos).2.2.2.2.2.2.1 (le_refl 0)

theorem bs_d1_repr (S K T r sigma : ℝ) (hT : 0 < T) (hsig : 0 < sigma) :
    bs_d1 S K T r sigma
      = (Real.log (S / K) + r * T) / (sigma * Real.sqrt T)
        + sigma * Real.sqrt T / 2 := by
have hs : 0 < Real.sqrt T := Real.sqrt_pos.mpr hT
set s := Real.sqrt T with hsdef
have hss : s * s = T := Real.mul_self_sqrt hT.le
have hs0 : s ≠ 0 := ne_of_gt hs
have hsig0 : sigma ≠ 0 := ne_of_gt hsig
unfold bs_d1
rw [← hss]
field_simp
ring

theorem bs_d2_repr (S K T r sigma : ℝ) (hT : 0 < T) (hsig : 0 < sigma) :
    bs_d2 S K T r sigma
      = (Real.log (S / K) + r * T) / (sigma * Real.sqrt T)
        - sigma * Real.sqrt T / 2 := by
unfold bs_d2
rw [bs_d1_repr S K T r sigma hT hsig]
ring

theorem bs_Ke_repr (S K T r : ℝ) (hS : 0 < S) (hK : 0 < K) :
    K * Real.exp (-r * T) = S * Real.exp (-(Real.log (S / K) + r * T)) := by
rw [neg_add, Real.exp_add, Real.exp_neg, Real.exp_log (div_pos hS hK), inv_div]
have hS0 : S ≠ 0 := ne_of_gt hS
field_simp

theorem black_scholes_call_price_repr (mode : ScalingMode) (S K T r sigma : ℝ)
    (hS : 0 < S) (hK : 0 < K) (hT : 0 < T) (hsig : 0 < sigma) :
    (black_scholes_price mode S K T r sigma "call").price
      = S * (normCdf ((Real.log (S / K) + r * T) / (sigma * Real.sqrt T)
            + sigma * Real.sqrt T / 2)
          - Real.exp (-(Real.log (S / K) + r * T))
            * normCdf ((Real.log (S / K) + r * T) / (sigma * Real.sqrt T)
              - sigma * Real.sqrt T / 2)) := by
rw [black_scholes_call_price mode S K T r sigma hT,
  bs_d1_repr S K T r sigma hT hsig, bs_d2_repr S K T r sigma hT hsig,
  bs_Ke_repr S K T r hS hK]
ring

theorem G_hasDerivAt (c a : ℝ) (ha : 0 < a) :
    HasDerivAt (fun b : ℝ => normCdf (c / b + b / 2)
        - Real.exp (-c) * normCdf (c / b - b / 2))
      (normPdf (c / a + a / 2)) a := by
have ha0 : a ≠ 0 := ne_of_gt ha
have hcdiv : HasDerivAt (fun b : ℝ => c / b) (-(c / a ^ 2)) a := by
  have h2 := (hasDerivAt_inv ha0).const_mul c
  have h3 : (fun b : ℝ => c * b⁻¹) = fun b : ℝ => c / b := by
    funext b
    rw [div_eq_mul_inv]
  rw [h3] at h2
  exact h2.congr_deriv (by field_simp)
have hhalf : HasDerivAt (fun b : ℝ => b / 2) (1 / 2) a := by
  have := (hasDerivAt_id a).div_const 2
  simpa using this
have hu : HasDerivAt (fun b : ℝ => c / b + b / 2) (-(c / a ^ 2) + 1 / 2) a :=
  hcdiv.add hhalf
have hv : HasDerivAt (fun b : ℝ => c / b - b / 2) (-(c / a ^ 2) - 1 / 2) a :=
  hcdiv.sub hhalf
have hU : HasDerivAt (fun b : ℝ => normCdf (c / b + b / 2))
    (normPdf (c / a + a / 2) * (-(c / a ^ 2) + 1 / 2)) a :=
  (normCdf_hasDerivAt (c / a + a / 2)).comp a hu
have hV : HasDerivAt (fun b : ℝ => normCdf (c / b - b / 2))
    (normPdf (c / a - a / 2) * (-(c / a ^ 2) - 1 / 2)) a :=
  (normCdf_hasDerivAt (c / a - a / 2)).comp a hv
have hsub := hU.sub (hV.const_mul (Real.exp (-c)))
have hid : Real.exp (-c) * normPdf (c / a - a / 2) = normPdf (c / a + a / 2) := by
  simp only [normPdf]
  rw [show Real.exp (-c) * ((Real.sqrt (2 * Real.pi))⁻¹
        * Real.exp (-((c / a - a / 2) ^ 2) / 2))
      = (Real.sqrt (2 * Real.pi))⁻¹
        * (Real.exp (-c) * Real.exp (-((c / a - a / 2) ^ 2) / 2)) from by ring]
  rw [← Real.exp_add]
  congr 1
  field_simp
  ring
exact hsub.congr_deriv (by linear_combination (c / a ^ 2 + 1 / 2) * hid)

theorem G_strictMonoOn (c : ℝ) :
    StrictMonoOn (fun a : ℝ => normCdf (c / a + a / 2)
      - Real.exp (-c) * normCdf (c / a - a / 2)) (Set.Ioi 0) := by
apply strictMonoOn_of_deriv_pos (convex_Ioi 0)
· intro a ha
  exact (G_hasDerivAt c a ha).continuousAt.continuousWithinAt
· intro a ha
  rw [interior_Ioi] at ha
  rw [(G_hasDerivAt c a ha).deriv]
  exact normPdf_pos _

/-- The Black-Scholes price is strictly increasing in volatility (S,K,T
fixed, T > 0), for the call kind. -/
theorem call_price_strictMonoOn (mode : ScalingMode) (S K T r : ℝ)
    (hS : 0 < S) (hK : 0 < K) (hT : 0 < T) :
    StrictMonoOn (fun sigma : ℝ =>
      (black_scholes_price mode S K T r sigma "call").price) (Set.Ioi 0) := by
intro x hx y hy hxy
have hx0 : 0 < x := hx
have hy0 : 0 < y := hy
simp only
rw [black_scholes_call_price_repr mode S K T r x hS hK hT hx0,
  black_scholes_call_price_repr mode S K T r y hS hK hT hy0]
have hs : 0 < Real.sqrt T := Real.sqrt_pos.mpr hT
apply mul_lt_mul_of_pos_left _ hS
exact G_strictMonoOn (Real.log (S / K) + r * T)
  (Set.mem_Ioi.mpr (mul_pos hx0 hs)) (Set.mem_Ioi.mpr (mul_pos hy0 hs))
  (mul_lt_mul_of_pos_right hxy hs)

/-- The Black-Scholes price is strictly increasing in volatility for every
contract kind (any kind other than "call" is the put computation, which
differs from the call by the sigma-independent parity term). -/
theorem price_strictMonoOn_kind (mode : ScalingMode) (S K T r : ℝ)
    (kind : String) (hS : 0 < S) (hK : 0 < K) (hT : 0 < T) :
    StrictMonoOn (fun sigma : ℝ =>
      (black_scholes_price mode S K T r sigma kind).price) (Set.Ioi 0) := by
by_cases hk : kind = "call"
· subst hk
  exact call_price_strictMonoOn mode S K T r hS hK hT
· have hput : ∀ sigma : ℝ,
      (black_scholes_price mode S K T r sigma kind).price
        = (black_scholes_price mode S K T r sigma "call").price
          - (S - K * Real.exp (-r * T)) := by
    intro sigma
    rw [black_scholes_kind_coerce mode S K T r sigma kind hk]
    have := black_scholes_parity mode S K T r sigma hT
    linarith
  intro x hx y hy hxy
  simp only
  rw [hput x, hput y]
  have := call_price_strictMonoOn mode S K T r hS hK hT hx hy hxy
  simp only at this
  linarith

theorem implied_volatility_calculator_of_brentq (mode : ScalingMode)
    (market_price S K T r : ℝ) (kind : String) (iv : ℝ)
    (h : brentq (fun sigma =>
        (black_scholes_price mode S K T r sigma kind).price - market_price)
      0.0001 5.0 = some iv) :
    ∃ res : IVResult,
      implied_volatility_calculator mode market_price S K T r kind = some res
        ∧ res.implied_volatility = iv := by
unfold implied_volatility_calculator
rw [h]
exact ⟨_, rfl, rfl⟩

/-- C7: IV round trip: for sigma₀ ∈ (0.01, 3), S>0, K>0, T>0, any r and any
contract kind, feeding the kernel's price at sigma₀ back into the
implied-volatility solver (bracketed root-finding over [0.0001, 5])
succeeds and recovers sigma₀ to within 1e-4 (exactly, in the
exact-arithmetic model of the root-finder, since the price is strictly
monotone in sigma and sigma₀ lies inside the bracket). -/
theorem claim_C7_iv_round_trip (mode : ScalingMode) (S K T r sigma0 : ℝ)
    (kind : String) (hS : 0 < S) (hK : 0 < K) (hT : 0 < T)
    (h1 : 0.01 < sigma0) (h2 : sigma0 < 3) :
    ∃ res : IVResult,
      implied_volatility_calculator mode
          ((black_scholes_price mode S K T r sigma0 kind).price) S K T r kind
        = some res
      ∧ |res.implied_volatility - sigma0| < 1e-4 := by
have hex : ∃ x, x ∈ Set.Icc (0.0001 : ℝ) 5.0 ∧
    ((black_scholes_price mode S K T r x kind).price
      - (black_scholes_price mode S K T r sigma0 kind).price) = 0 := by
  refine ⟨sigma0, ⟨by linarith, by linarith⟩, sub_self _⟩
have hbq : brentq (fun sigma =>
    (black_scholes_price mode S K T r sigma kind).price
      - (black_scholes_price mode S K T r sigma0 kind).price) 0.0001 5.0
    = some (Classical.choose hex) := by
  rw [brentq, dif_pos hex]
obtain ⟨hmem, hroot⟩ := Classical.choose_spec hex
have heq : Classical.choose hex = sigma0 := by
  have h3 : (black_scholes_price mode S K T r (Classical.choose hex) kind).price
      = (black_scholes_price mode S K T r sigma0 kind).price := by
    linarith
  have hcm : Classical.choose hex ∈ Set.Ioi (0 : ℝ) := by
    rcases hmem with ⟨hlo, hhi⟩
    have : (0 : ℝ) < 0.0001 := by norm_num
    exact Set.mem_Ioi.mpr (by linarith)
  have hsm : sigma0 ∈ Set.Ioi (0 : ℝ) := Set.mem_Ioi.mpr (by linarith)
  exact (price_strictMonoOn_kind mode S K T r kind hS hK hT).injOn hcm hsm h3
rw [heq] at hbq
obtain ⟨res, hres, hiv⟩ := implied_volatility_calculator_of_brentq mode
  ((black_scholes_price mode S K T r sigma0 kind).price) S K T r kind sigma0 hbq
refine ⟨res, hres, ?_⟩
rw [hiv, sub_self, abs_zero]
norm_num

theorem claim_C7_witness :
    (0 : ℝ) < 1 ∧ (0.01 : ℝ) < 1 ∧ (1 : ℝ) < 3 ∧
    ∃ res : IVResult,
      implied_volatility_calculator ScalingMode.daily
          ((black_scholes_price ScalingMode.daily 1 1 1 0 1 "call").price)
          1 1 1 0 "call"
        = some res
      ∧ |res.implied_volatility - 1| < 1e-4 :=
⟨one_pos, by norm_num, by norm_num,
  claim_C7_iv_round_trip ScalingMode.daily 1 1 1 0 1 "call"
    one_pos one_pos one_pos (by norm_num) (by norm_num)⟩

theorem np_arange_eq_map (start step : ℚ) (n : ℕ) (hstep : 0 < step) :
    np_arange start (start + n * step) step
      = (List.range n).map (fun k : ℕ => start + (k : ℚ) * step) := by
unfold np_arange
congr 2
have harg : (start + n * step - start) / step = ((n : ℤ) : ℚ) := by
  push_cast
  field_simp
rw [harg, Int.ceil_intCast]
simp

/-- C8 (amended): the generated strike ladder is always the arithmetic
progression `start + k·increment` (hence strictly increasing and evenly
spaced at the increment); when the dte-adjusted width
`width · clamp(dte/7, 0.5, 2)` is an exact multiple m·increment of the
increment, every strike is an integer multiple of the increment and the ATM
strike round(S/increment)·increment appears exactly once.  (For widths that
are not a multiple of the increment, strikes are offset from the increment
grid and the ATM strike need not appear; see the counterexample.) -/
theorem claim_C8_strike_ladder (inc width S dte : ℚ) (m : ℕ) (hinc : 0 < inc)
    (hw : width * max (1/2 : ℚ) (min 2 (dte / 7)) = m * inc) :
    generate_strike_range inc width S dte
      = (List.range (2 * m + 1)).map
          (fun k : ℕ => ((python_round (S / inc) : ℚ) * inc - m * inc) + (k : ℚ) * inc) ∧
    List.Pairwise (· < ·) (generate_strike_range inc width S dte) ∧
    (generate_strike_range inc width S dte).count
        ((python_round (S / inc) : ℚ) * inc) = 1 ∧
    ∀ x ∈ generate_strike_range inc width S dte, ∃ j : ℤ, x = j * inc := by
have hgen : generate_strike_range inc width S dte
    = np_arange
        ((python_round (S / inc) : ℚ) * inc
          - width * max (1/2 : ℚ) (min 2 (dte / 7)))
        ((python_round (S / inc) : ℚ) * inc
          + width * max (1/2 : ℚ) (min 2 (dte / 7)) + inc) inc := rfl
have hstop : (python_round (S / inc) : ℚ) * inc
      + width * max (1/2 : ℚ) (min 2 (dte / 7)) + inc
    = ((python_round (S / inc) : ℚ) * inc
        - width * max (1/2 : ℚ) (min 2 (dte / 7)))
      + ((2 * m + 1 : ℕ) : ℚ) * inc := by
  rw [hw]
  push_cast
  ring
have hmain : generate_strike_range inc width S dte
    = (List.range (2 * m + 1)).map
        (fun k : ℕ => ((python_round (S / inc) : ℚ) * inc - m * inc) + (k : ℚ) * inc) := by
  rw [hgen, hstop, np_arange_eq_map _ inc (2 * m + 1) hinc, hw]
refine ⟨hmain, ?_, ?_, ?_⟩
· rw [hmain]
  apply List.Pairwise.map
  · intro a b hab
    have hc : (a : ℚ) < (b : ℚ) := by exact_mod_cast hab
    have := mul_lt_mul_of_pos_right hc hinc
    linarith
  · exact List.pairwise_lt_range (2 * m + 1)
· rw [hmain]
  have hatm : (python_round (S / inc) : ℚ) * inc
      = ((python_round (S / inc) : ℚ) * inc - m * inc) + (m : ℚ) * inc := by
    ring
  nth_rewrite 1 [hatm]
  have hinj : Function.Injective
      (fun k : ℕ => ((python_round (S / inc) : ℚ) * inc - m * inc) + (k : ℚ) * inc) := by
    intro a b hab
    simp only at hab
    have h1 : (a : ℚ) * inc = (b : ℚ) * inc := by linarith
    have h2 : (a : ℚ) = (b : ℚ) :=
      mul_right_cancel₀ (ne_of_gt hinc) h1
    exact_mod_cast h2
  rw [List.count_map_of_injective _ _ hinj]
  exact List.count_eq_one_of_mem (List.nodup_range (2 * m + 1))
    (List.mem_range.mpr (by omega))
· rw [hmain]
  intro x hx
  obtain ⟨k, _, hk⟩ := List.mem_map.mp hx
  refine ⟨python_round (S / inc) - (m : ℤ) + (k : ℤ), ?_⟩
  rw [← hk]
  push_cast
  ring

/-- C8 counterexample: with spot 10, increment 2.5, width 1, dte 7 the ladder
is [9, 11.5]: the ATM strike 10 = round(10/2.5)·2.5 is not contained in the
sequence (and its elements are not multiples of the increment). -/
theorem claim_C8_counterexample :
    generate_strike_range (5/2) 1 10 7 = [9, 23/2] ∧
    (python_round ((10 : ℚ) / (5/2)) : ℚ) * (5/2) = 10 ∧
    (10 : ℚ) ∉ generate_strike_range (5/2) 1 10 7 := by
have hround : python_round ((10 : ℚ) / (5 / 2)) = 4 := by
  have h1 : (10 : ℚ) / (5 / 2) = 4 := by norm_num
  unfold python_round
  rw [h1]
  norm_num
have hgen : generate_strike_range (5 / 2) 1 10 7 = [9, 23 / 2] := by
  have h0 : generate_strike_range (5 / 2) 1 10 7
      = np_arange
          ((python_round ((10 : ℚ) / (5 / 2)) : ℚ) * (5 / 2)
            - 1 * max (1/2 : ℚ) (min 2 ((7 : ℚ) / 7)))
          ((python_round ((10 : ℚ) / (5 / 2)) : ℚ) * (5 / 2)
            + 1 * max (1/2 : ℚ) (min 2 ((7 : ℚ) / 7)) + 5 / 2) (5 / 2) := rfl
  rw [h0, hround]
  have hstart : ((4 : ℤ) : ℚ) * (5 / 2) - 1 * max (1/2 : ℚ) (min 2 ((7 : ℚ) / 7))
      = 9 := by norm_num
  have hstop : ((4 : ℤ) : ℚ) * (5 / 2) + 1 * max (1/2 : ℚ) (min 2 ((7 : ℚ) / 7))
      + 5 / 2 = 27 / 2 := by norm_num
  rw [hstart, hstop]
  unfold np_arange
  have hceil : Int.ceil (((27 : ℚ) / 2 - 9) / (5 / 2)) = 2 := by
    rw [Int.ceil_eq_iff]
    constructor <;> norm_num
  rw [hceil]
  simp [List.range_succ]
  norm_num
refine ⟨hgen, by rw [hround]; norm_num, ?_⟩
rw [hgen]
norm_num

theorem claim_C8_witness :
    (0 : ℚ) < 5/2 ∧
    (35 : ℚ) * max (1/2 : ℚ) (min 2 ((7 : ℚ) / 7)) = ((14 : ℕ) : ℚ) * (5/2) ∧
    (generate_strike_range (5/2) 35 10 7).count
        ((python_round ((10 : ℚ) / (5/2)) : ℚ) * (5/2)) = 1 :=
⟨by norm_num, by norm_num,
  (claim_C8_strike_ladder (5/2) 35 10 7 14 (by norm_num) (by norm_num)).2.2.1⟩

theorem append_rr_ne_change (nm : String) : nm ++ "_rr" ≠ nm ++ "_change" := by
intro h
have h2 := congrArg String.data h
simp only [String.data_append] at h2
have h3 := List.append_cancel_left h2
exact absurd h3 (by decide)

/-- C10: in the per-contract scenario computation the direction of the
underlying shift depends on the contract kind: each named move (nm, m)
reprices a call at underlying S + m (signed) and a put at underlying
S − |m| (always shifted downward by the absolute move size, even when the
configured move is negative). -/
theorem claim_C10_scenario_shift (mode : ScalingMode) (S K T r sigma : ℝ)
    (moves : List (String × ℝ)) (nm : String) (m : ℝ)
    (hmem : (nm, m) ∈ moves) :
    ((nm ++ "_change",
        (black_scholes_price mode (S + m) K T r sigma "call").price
          - (black_scholes_price mode S K T r sigma "call").price)
      ∈ move_scenarios mode S K T r sigma "call" moves) ∧
    ((nm ++ "_change",
        (black_scholes_price mode (S - abs m) K T r sigma "put").price
          - (black_scholes_price mode S K T r sigma "put").price)
      ∈ move_scenarios mode S K T r sigma "put" moves) := by
constructor
· unfold move_scenarios
  apply List.mem_flatMap.mpr
  refine ⟨(nm, m), hmem, ?_⟩
  simp
· unfold move_scenarios
  apply List.mem_flatMap.mpr
  refine ⟨(nm, m), hmem, ?_⟩
  have hp : ¬ (("put" : String) = "call") := by decide
  simp [hp]

theorem claim_C10_witness :
    (("target_move", (2 : ℝ)) ∈ [(("target_move" : String), (2 : ℝ))]) ∧
    ((("target_move" ++ "_change" : String),
        (black_scholes_price ScalingMode.daily (5 + 2) 4 1 0 1 "call").price
          - (black_scholes_price ScalingMode.daily 5 4 1 0 1 "call").price)
      ∈ move_scenarios ScalingMode.daily 5 4 1 0 1 "call"
          [("target_move", 2)]) :=
⟨List.mem_singleton.mpr rfl,
  (claim_C10_scenario_shift ScalingMode.daily 5 4 1 0 1 [("target_move", 2)]
    "target_move" 2 (List.mem_singleton.mpr rfl)).1⟩

/-- C9 (amended): for a contract whose theoretical premium exceeds the 0.01
guard, the composite day-trade score equals
0.4·|delta| + 0.3·(price change at the primary move / premium)
+ 0.2·(1/(premium+1)) + 0.1·prob_itm, where the primary move is the
first-declared scenario move and premium is the theoretical kernel price.
(When the premium is ≤ 0.01 the source zeroes the risk/reward term instead
of dividing; see the counterexample.) -/
theorem claim_C9_day_trade_score (mode : ScalingMode) (S K T r sigma : ℝ)
    (option_type : String) (nm : String) (m : ℝ) (rest : List (String × ℝ))
    (hp : (black_scholes_price mode S K T r sigma option_type).price > 0.01) :
    calculate_day_trade_score
        (black_scholes_price mode S K T r sigma option_type)
        (move_scenarios mode S K T r sigma option_type ((nm, m) :: rest))
        (calculate_probability_profit mode S K T r sigma option_type)
        ((nm, m) :: rest)
      = 0.4 * |(black_scholes_price mode S K T r sigma option_type).delta|
        + 0.3 * (((black_scholes_price mode
              (if option_type = "call" then S + m else S - abs m)
              K T r sigma option_type).price
            - (black_scholes_price mode S K T r sigma option_type).price)
          / (black_scholes_price mode S K T r sigma option_type).price)
        + 0.2 * (1 / ((black_scholes_price mode S K T r sigma option_type).price + 1))
        + 0.1 * (calculate_probability_profit mode S K T r sigma option_type).prob_itm := by
have h1 : ((nm ++ "_rr") == (nm ++ "_change")) = false :=
  beq_eq_false_iff_ne.mpr (append_rr_ne_change nm)
have h2 : ((nm ++ "_rr") == (nm ++ "_rr")) = true := beq_self_eq_true _
unfold calculate_day_trade_score move_scenarios
simp only [List.headD_cons, List.flatMap_cons, List.cons_append, List.nil_append,
  List.lookup, h1, h2, if_pos hp]
simp only [Option.getD_some]
ring

/-- C9 counterexample: a contract with theoretical premium 1/128 ≤ 0.01 (deep
OTM at expiry): the source's score zeroes the risk/reward term, while the
claimed formula divides the primary-move price change (= 2) by the premium,
so the two differ (by 0.3·256 = 76.8). -/
theorem claim_C9_counterexample :
    calculate_day_trade_score
        (black_scholes_price ScalingMode.daily 10 (10 - 1/128) 0 0 1 "call")
        (move_scenarios ScalingMode.daily 10 (10 - 1/128) 0 0 1 "call"
          [("target_move", 2)])
        (calculate_probability_profit ScalingMode.daily 10 (10 - 1/128) 0 0 1 "call")
        [("target_move", 2)]
      ≠ 0.4 * |(black_scholes_price ScalingMode.daily 10 (10 - 1/128) 0 0 1 "call").delta|
        + 0.3 * (((black_scholes_price ScalingMode.daily (10 + 2) (10 - 1/128)
              0 0 1 "call").price
            - (black_scholes_price ScalingMode.daily 10 (10 - 1/128) 0 0 1 "call").price)
          / (black_scholes_price ScalingMode.daily 10 (10 - 1/128) 0 0 1 "call").price)
        + 0.2 * (1 / ((black_scholes_price ScalingMode.daily 10 (10 - 1/128)
              0 0 1 "call").price + 1))
        + 0.1 * (calculate_probability_profit ScalingMode.daily 10 (10 - 1/128)
              0 0 1 "call").prob_itm := by
have hp1 : (black_scholes_price ScalingMode.daily 10 (10 - 1/128) 0 0 1 "call").price
    = 1 / 128 := by
  rw [black_scholes_T_nonpos_call ScalingMode.daily 10 (10 - 1/128) 0 0 1 (le_refl 0)]
  show max (10 - (10 - 1/128) : ℝ) 0 = 1 / 128
  norm_num
have hp2 : (black_scholes_price ScalingMode.daily (10 + 2) (10 - 1/128) 0 0 1 "call").price
    = 2 + 1 / 128 := by
  rw [black_scholes_T_nonpos_call ScalingMode.daily (10 + 2) (10 - 1/128) 0 0 1 (le_refl 0)]
  show max (10 + 2 - (10 - 1/128) : ℝ) 0 = 2 + 1 / 128
  norm_num
have h1 : ((("target_move" : String) ++ "_rr") == ("target_move" ++ "_change"))
    = false := by decide
have h2 : ((("target_move" : String) ++ "_rr") == ("target_move" ++ "_rr"))
    = true := by decide
have hcond : ¬ ((black_scholes_price ScalingMode.daily 10 (10 - 1/128) 0 0 1 "call").price
    > 0.01) := by
  rw [hp1]
  norm_num
unfold calculate_day_trade_score move_scenarios
simp only [List.headD_cons, List.flatMap_cons, List.flatMap_nil, List.cons_append,
  List.nil_append, List.append_nil, List.lookup, h1, h2, if_neg hcond]
simp only [Option.getD_some]
rw [hp1, hp2]
intro heq
have hd := abs_nonneg (black_scholes_price ScalingMode.daily 10 (10 - 1/128) 0 0 1 "call").delta
norm_num at heq
linarith

theorem claim_C9_witness :
    (black_scholes_price ScalingMode.daily 2 1 0 0 1 "call").price > 0.01 ∧
    calculate_day_trade_score
        (black_scholes_price ScalingMode.daily 2 1 0 0 1 "call")
        (move_scenarios ScalingMode.daily 2 1 0 0 1 "call" [("target_move", 1)])
        (calculate_probability_profit ScalingMode.daily 2 1 0 0 1 "call")
        [("target_move", 1)]
      = 0.4 * |(black_scholes_price ScalingMode.daily 2 1 0 0 1 "call").delta|
        + 0.3 * (((black_scholes_price ScalingMode.daily
              (if ("call" : String) = "call" then 2 + 1 else 2 - abs 1)
              1 0 0 1 "call").price
            - (black_scholes_price ScalingMode.daily 2 1 0 0 1 "call").price)
          / (black_scholes_price ScalingMode.daily 2 1 0 0 1 "call").price)
        + 0.2 * (1 / ((black_scholes_price ScalingMode.daily 2 1 0 0 1 "call").price + 1))
        + 0.1 * (calculate_probability_profit ScalingMode.daily 2 1 0 0 1 "call").prob_itm := by
have hp : (black_scholes_price ScalingMode.daily 2 1 0 0 1 "call").price > 0.01 := by
  rw [black_scholes_T_nonpos_call ScalingMode.daily 2 1 0 0 1 (le_refl 0)]
  show max (2 - 1 : ℝ) 0 > 0.01
  norm_num
exact ⟨hp, claim_C9_day_trade_score ScalingMode.daily 2 1 0 0 1 "call"
  "target_move" 1 [] hp⟩

end OptionsCalc
